import Mathlib

/-!
Verification of the ICL-PILOT transcript-annotation core against its
natural-language specification.

Utterance lines are modelled as `List Char`.  The Python regular-expression
operations used by the annotation scripts are embedded as explicit scanning
functions over character lists.  Character classes (`\w`, `\s`, `[a-z]` with
`re.IGNORECASE`, `str.lower`) are modelled over the ASCII range, which covers
every word in the rule tables and every structural marker of the transcript
format.  Recursions that skip ahead in the list are driven by a fuel
parameter (always instantiated with the list length) so that every function
reduces inside the kernel.
-/

namespace ICL

/-! ### Character classes (ASCII models of the Python classes) -/

/-- Python `\s` (ASCII part): space, tab, newline, carriage return,
vertical tab, form feed. -/
def pySpace (c : Char) : Bool :=
  c.toNat == 32 || c.toNat == 9 || c.toNat == 10 || c.toNat == 13 ||
  c.toNat == 11 || c.toNat == 12

/-- ASCII digit `0`-`9`. -/
def pyDigit (c : Char) : Bool := 48 ≤ c.toNat && c.toNat ≤ 57

/-- ASCII uppercase letter `A`-`Z`. -/
def pyUpper (c : Char) : Bool := 65 ≤ c.toNat && c.toNat ≤ 90

/-- ASCII lowercase letter `a`-`z`. -/
def pyLowerAlpha (c : Char) : Bool := 97 ≤ c.toNat && c.toNat ≤ 122

/-- ASCII letter, i.e. what `[a-z]` matches under `re.IGNORECASE`. -/
def pyAlpha (c : Char) : Bool := pyUpper c || pyLowerAlpha c

/-- Python `\w` (ASCII part): letter, digit or underscore. -/
def pyWordChar (c : Char) : Bool := pyAlpha c || pyDigit c || c == '_'

/-- ASCII model of `str.lower` on one character. -/
def pyToLower (c : Char) : Char :=
  if pyUpper c then Char.ofNat (c.toNat + 32) else c

/-- Case-insensitive character comparison, as used by `re.IGNORECASE`. -/
def lcEq (a b : Char) : Bool := pyToLower a == pyToLower b

/-- Characters that can occur inside a span matched by an agreement pattern:
letters and whitespace. -/
def spanChar (c : Char) : Bool := pyAlpha c || pySpace c

/-! ### List utilities mirroring Python string primitives -/

/-- Python `pat in s` substring test. -/
def containsSub (pat : List Char) : List Char → Bool
  | [] => pat.isEmpty
  | c :: cs => pat.isPrefixOf (c :: cs) || containsSub pat cs

/-- Python `str.strip()`: drop whitespace from both ends. -/
def pyStrip (l : List Char) : List Char :=
  ((l.dropWhile pySpace).reverse.dropWhile pySpace).reverse

/-- Python `str.split(sep, 1)`: one or two fields. -/
def pySplit1 (sep : Char) : List Char → List (List Char)
  | [] => [[]]
  | c :: cs =>
    if c == sep then [[], cs]
    else
      match pySplit1 sep cs with
      | [] => [[c]]
      | p :: rest => (c :: p) :: rest

/-- Python `" ".join(parts)`. -/
def joinSpace : List (List Char) → List Char
  | [] => []
  | [x] => x
  | x :: xs => x ++ ' ' :: joinSpace xs

/-- Fuelled worker for `pySplitWs`. -/
def pySplitWsGo : Nat → List Char → List (List Char)
  | 0, _ => []
  | _ + 1, [] => []
  | fuel + 1, c :: cs =>
    if pySpace c then pySplitWsGo fuel cs
    else
      ((c :: cs).takeWhile (fun x => !pySpace x)) ::
        pySplitWsGo fuel ((c :: cs).dropWhile (fun x => !pySpace x))

/-- Python `str.split()` with no argument: split on whitespace runs,
dropping empty fields. -/
def pySplitWs (l : List Char) : List (List Char) := pySplitWsGo l.length l

/-- Python `str.lower()`. -/
def lowerStr (l : List Char) : List Char := l.map pyToLower

/-! ### Regex scanning machinery

The annotation scripts only use patterns of the shapes
`\b w₁ \s+ w₂ \b` and `\b w₁ \s+ ([a-z]+) \b` (with `re.IGNORECASE`) and
`\b w \b` (case sensitive), always substituting `\g<1> suffix` for the whole
match, so it suffices to embed left-to-right non-overlapping scans for those
shapes.  A word boundary `\b` holds at a position iff word-character-ness
differs between the character before and the character after the position;
`prevW` carries the word-character-ness of the previously scanned
character (`false` at the start of the string). -/

/-- Match a literal word case-insensitively at the head of `s`; returns the
matched span (original characters) and the rest. -/
def matchWordCI : List Char → List Char → Option (List Char × List Char)
  | [], s => some ([], s)
  | _ :: _, [] => none
  | p :: ps, c :: cs =>
    if lcEq p c then (matchWordCI ps cs).map (fun mr => (c :: mr.1, mr.2))
    else none

/-- Match a literal word case-sensitively at the head of `s`. -/
def matchWordCS : List Char → List Char → Option (List Char × List Char)
  | [], s => some ([], s)
  | _ :: _, [] => none
  | p :: ps, c :: cs =>
    if p == c then (matchWordCS ps cs).map (fun mr => (c :: mr.1, mr.2))
    else none

/-- Greedy `\s+`: one or more whitespace characters. -/
def takeSpaces1 (l : List Char) : Option (List Char × List Char) :=
  if (l.takeWhile pySpace).isEmpty then none
  else some (l.takeWhile pySpace, l.dropWhile pySpace)

/-- Word-character-ness of the head of a list (`false` at end of string). -/
def headW : List Char → Bool
  | [] => false
  | c :: _ => pyWordChar c

/-- Try to match `subject \s+ verb \b` at the head of `s` (case-insensitive);
the leading `\b` is checked by the caller via `prevW`.  Returns the matched
span and the rest.  (`\s+` needs no backtracking here because every verb in
the rule tables begins with a non-space character.) -/
def matchPairCore (subject verb : List Char) (s : List Char) :
    Option (List Char × List Char) :=
  match matchWordCI subject s with
  | none => none
  | some (m1, r1) =>
    match takeSpaces1 r1 with
    | none => none
    | some (sp, r2) =>
      match matchWordCI verb r2 with
      | none => none
      | some (m2, r3) =>
        if pyWordChar ((sp ++ m2).getLastD ' ') != headW r3 then
          some (m1 ++ (sp ++ m2), r3)
        else none

/-- Fuelled worker for `subPairAll`; the fuel only serves to make the
recursion structural, `subPairAll` always supplies enough of it. -/
def subPairGo (subject verb ins : List Char) : Nat → Bool → List Char → List Char
  | 0, _, l => l
  | _ + 1, _, [] => []
  | fuel + 1, prevW, c :: cs =>
    if prevW != pyWordChar c then
      match matchPairCore subject verb (c :: cs) with
      | some (m, r) =>
        m ++ ins ++ subPairGo subject verb ins fuel (pyWordChar (m.getLastD ' ')) r
      | none => c :: subPairGo subject verb ins fuel (pyWordChar c) cs
    else c :: subPairGo subject verb ins fuel (pyWordChar c) cs

/-- Left-to-right non-overlapping substitution of every match of
`\b subject \s+ verb \b` by `match ++ ins`, the embedding of
`re.sub(rf'\b({subject}\s+{verb})\b', rf'\g<1>{ins}', line, flags=re.IGNORECASE)`. -/
def subPairAll (subject verb ins : List Char) (prevW : Bool) (l : List Char) :
    List Char :=
  subPairGo subject verb ins l.length prevW l

/-- Embedding of `re.compile(rf'\b{subject}\s+{verb}\b', re.IGNORECASE).search(line)`
as a Boolean: does the pattern match anywhere in the line? -/
def searchPair (subject verb : List Char) (prevW : Bool) : List Char → Bool
  | [] => false
  | c :: cs =>
    ((prevW != pyWordChar c) && (matchPairCore subject verb (c :: cs)).isSome) ||
    searchPair subject verb (pyWordChar c) cs

/-- Maximal run of letters, the greedy `([a-z]+)` under `re.IGNORECASE`. -/
def lettersRun : List Char → List Char × List Char
  | [] => ([], [])
  | c :: cs =>
    if pyAlpha c then
      let p := lettersRun cs
      (c :: p.1, p.2)
    else ([], c :: cs)

/-- Try `subject \s+ ([a-z]+) \b` at the head of `s`; the left `\b` is the
caller's duty.  Returns the lowercased captured verb.  A maximal letter run
followed by a digit or underscore admits no match at this position: every
shorter run still ends letter-before-letter, so `\b` fails for all of them. -/
def match03At (subject : List Char) (s : List Char) : Option (List Char) :=
  match matchWordCI subject s with
  | none => none
  | some (_, r1) =>
    match takeSpaces1 r1 with
    | none => none
    | some (_, r2) =>
      match lettersRun r2 with
      | ([], _) => none
      | (run, r3) => if headW r3 then none else some (run.map pyToLower)

/-- Scan for the first match of `\b{subject}\s+([a-z]+)\b`, returning the
lowercased captured verb, the embedding of `pattern.search(line)` plus
`match.group(1).lower()`. -/
def search03 (subject : List Char) (prevW : Bool) : List Char → Option (List Char)
  | [] => none
  | c :: cs =>
    (if prevW != pyWordChar c then match03At subject (c :: cs) else none) <|>
    search03 subject (pyWordChar c) cs

/-- Try to match the literal `word \b` case-sensitively at the head of `s`;
the leading `\b` is checked by the caller. -/
def matchLitAt (word : List Char) (s : List Char) : Option (List Char × List Char) :=
  match matchWordCS word s with
  | none => none
  | some (m, r) =>
    if pyWordChar (m.getLastD ' ') != headW r then some (m, r) else none

/-- Fuelled worker for `subLitAll`. -/
def subLitGo (word ins : List Char) : Nat → Bool → List Char → List Char
  | 0, _, l => l
  | _ + 1, _, [] => []
  | fuel + 1, prevW, c :: cs =>
    if prevW != pyWordChar c then
      match matchLitAt word (c :: cs) with
      | some (m, r) =>
        m ++ ins ++ subLitGo word ins fuel (pyWordChar (m.getLastD ' ')) r
      | none => c :: subLitGo word ins fuel (pyWordChar c) cs
    else c :: subLitGo word ins fuel (pyWordChar c) cs

/-- Left-to-right non-overlapping substitution of every match of
`\b word \b` (case-sensitive) by `match ++ ins`, the embedding of
`re.sub(rf'\b({word})\b', rf'\g<1>{ins}', line)`. -/
def subLitAll (word ins : List Char) (prevW : Bool) (l : List Char) : List Char :=
  subLitGo word ins l.length prevW l

/-- Embedding of `re.compile(rf'\b{word}\b').search(line)` as a Boolean. -/
def searchLit (word : List Char) (prevW : Bool) : List Char → Bool
  | [] => false
  | c :: cs =>
    ((prevW != pyWordChar c) && (matchLitAt word (c :: cs)).isSome) ||
    searchLit word (pyWordChar c) cs

/-! ### Rule tables (`scripts/find_unv_errors.py`, `scripts/find_agreement_errors.py`,
`scripts/find_03s_errors.py`, `scripts/find_past_tense_errors.py`) -/

/-- Singular subjects of `find_unv_errors.py`. -/
def SINGULAR_SUBJECTS : List (List Char) :=
  ["it".data, "she".data, "he".data, "this".data, "that".data, "one".data,
   "everyone".data, "someone".data, "anyone".data, "nobody".data,
   "somebody".data, "anybody".data, "either".data, "neither".data]

/-- Bare verbs of `find_unv_errors.py`. -/
def BARE_VERBS : List (List Char) :=
  ["be".data, "were".data, "have".data, "do".data, "go".data, "say".data]

/-- Plural subjects of `find_agreement_errors.py`. -/
def PLURAL_SUBJECTS : List (List Char) :=
  ["they".data, "we".data, "these".data, "those".data, "both".data,
   "many".data, "few".data, "several".data]

/-- Third person singular verbs of `find_agreement_errors.py`. -/
def SINGULAR_VERBS : List (List Char) :=
  ["was".data, "has".data, "does".data, "is".data, "wants".data,
   "needs".data, "likes".data, "goes".data, "says".data]

/-- Subject list of `find_03s_errors.py`. -/
def SUBJECTS_03S : List (List Char) :=
  ["he".data, "she".data, "it".data, "this".data, "that".data, "one".data,
   "everyone".data, "someone".data, "anyone".data, "nobody".data,
   "somebody".data, "anybody".data, "either".data, "neither".data]

/-- Excluded verbs of `find_03s_errors.py`. -/
def EXCLUDED_VERBS : List (List Char) :=
  ["be".data, "were".data, "have".data, "has".data, "do".data, "does".data,
   "go".data, "goes".data, "say".data, "says".data, "is".data, "was".data,
   "are".data, "am".data]

/-- Irregular-verb table of `find_past_tense_errors.py`, in source order. -/
def IRREGULAR_VERBS : List (List Char × List Char) :=
  [("break".data, "broke".data), ("choose".data, "chose".data),
   ("feel".data, "felt".data), ("think".data, "thought".data),
   ("buy".data, "bought".data), ("stick".data, "stuck".data),
   ("give".data, "gave".data), ("fall".data, "fell".data),
   ("run".data, "ran".data), ("tell".data, "told".data),
   ("fly".data, "flew".data), ("come".data, "came".data),
   ("build".data, "built".data), ("have".data, "had".data),
   ("go".data, "went".data), ("hurt".data, "hurt".data),
   ("do".data, "did".data), ("say".data, "said".data),
   ("eat".data, "ate".data), ("take".data, "took".data),
   ("see".data, "saw".data), ("pop".data, "popped".data),
   ("blow".data, "blew".data), ("bring".data, "brought".data)]

/-! ### The agreement annotators (`find_unv_errors.py` / `find_agreement_errors.py`)

Both scripts run the same per-line loop, differing only in the word lists,
the skip tag and the inserted code text, so the loop is embedded once with
those as parameters.  Per line the Python code is: skip the line when
`"*[" in line and skipTag in line`; otherwise, for each subject and for
each verb, if `\b{subject}\s+{verb}\b` (ignore-case) matches the line, set
the stored line to `re.sub` applied to the original `line` (so the last
matching pair wins). -/

def annotate_pass (subjects verbs : List (List Char)) (skipTag ins : List Char)
    (line : List Char) : List Char :=
  if containsSub "*[".data line && containsSub skipTag line then line
  else
    subjects.foldl (fun acc subject =>
      verbs.foldl (fun acc2 verb =>
        if searchPair subject verb false line then subPairAll subject verb ins false line
        else acc2) acc) line

/-- Per-line behaviour of `find_and_annotate_unv_errors`. -/
def find_and_annotate_unv_line (line : List Char) : List Char :=
  annotate_pass SINGULAR_SUBJECTS BARE_VERBS "m:unv:a".data " [* m:unv:a]".data line

/-- Per-line behaviour of `find_and_annotate_vsg_errors` (its replacement text
carries a trailing blank: `rf'\g<1> [* m:vsg:a] '`). -/
def find_and_annotate_vsg_line (line : List Char) : List Char :=
  annotate_pass PLURAL_SUBJECTS SINGULAR_VERBS "m:vsg:a".data " [* m:vsg:a] ".data line

/-- Whole-file behaviour of `find_and_annotate_unv_errors`: each stored line is
rewritten independently and all lines are written back. -/
def find_and_annotate_unv_file (lines : List (List Char)) : List (List Char) :=
  lines.map find_and_annotate_unv_line

/-- Per-line behaviour of `find_and_annotate_03s_errors`: per subject it
searches `\b{subject}\s+([a-z]+)\b` (ignore-case), takes the first match,
lowercases the captured verb and, unless the verb is excluded, substitutes
every `\b{subject}\s+{verb}\b` occurrence in the original line. -/
def find_and_annotate_03s_line (line : List Char) : List Char :=
  if containsSub "*[".data line &&
     (containsSub "m:03s:a".data line || containsSub "m:unv:a".data line ||
      containsSub "m:vsg:a".data line) then line
  else
    SUBJECTS_03S.foldl (fun acc subject =>
      match search03 subject false line with
      | none => acc
      | some verb =>
        if verb ∈ EXCLUDED_VERBS then acc
        else subPairAll subject verb " [* m:03s:a]".data false line) line

/-! ### The revert pass (`scripts/revert_03s_annotations.py`) -/

/-- The bracket code inserted by the 03s annotator. -/
def CODE03 : List Char := "[* m:03s:a]".data

/-- Fuelled worker for `removeAll03`. -/
def removeGo03 : Nat → List Char → List Char
  | 0, l => l
  | _ + 1, [] => []
  | fuel + 1, c :: cs =>
    if pySpace c && CODE03.isPrefixOf cs then removeGo03 fuel (cs.drop 11)
    else c :: removeGo03 fuel cs

/-- Left-to-right non-overlapping removal of every `\s\[\* m:03s:a\]` match,
the embedding of `re.sub(r'\s\[\* m:03s:a\]', '', line)`. -/
def removeAll03 (l : List Char) : List Char := removeGo03 l.length l

/-- Per-line behaviour of `revert_03s_annotations`: lines not containing the
code are left untouched. -/
def revert_03s_line (line : List Char) : List Char :=
  if containsSub CODE03 line then removeAll03 line else line

/-! ### The past-tense pass (`scripts/find_past_tense_errors.py`)

Per line, for every irregular verb whose regularized form `{verb}ed`
matches, the function records the pair of the stripped original line and
the stripped line with `re.sub(rf'\b({verb}ed)\b', rf'\g<1> [: {past}] [* m:=ed]', line)`
applied; the file is not modified. -/

def find_and_mark_line (line : List Char) : List (List Char × List Char) :=
  IRREGULAR_VERBS.foldl (fun acc vp =>
    if searchLit (vp.1 ++ "ed".data) false line then
      acc ++ [(pyStrip line,
        pyStrip (subLitAll (vp.1 ++ "ed".data)
          (" [: ".data ++ vp.2 ++ "] [* m:=ed]".data) false line))]
    else acc) []

/-! ### The strict utterance cleaner (`dld_data_extractor.py`) -/

/-- Scan for the first `close` character, failing at a newline or the end of
the string: the lazy `.*?` cannot cross a newline since `.` does not match it. -/
def findCloseNoNL (close : Char) : List Char → Option (List Char)
  | [] => none
  | c :: cs =>
    if c == close then some cs
    else if c == '\n' then none
    else findCloseNoNL close cs

/-- Fuelled worker for `stripDelims`. -/
def stripDelimGo (opn close : Char) : Nat → List Char → List Char
  | 0, l => l
  | _ + 1, [] => []
  | fuel + 1, c :: cs =>
    if c == opn then
      match findCloseNoNL close cs with
      | some rest => stripDelimGo opn close fuel rest
      | none => c :: stripDelimGo opn close fuel cs
    else c :: stripDelimGo opn close fuel cs

/-- Embedding of `re.sub(r'\[.*?\]', '', text)` (and the `<...>` analogue):
remove every lazily delimited span. -/
def stripDelims (opn close : Char) (l : List Char) : List Char :=
  stripDelimGo opn close l.length l

/-- Fuelled worker for `stripAmp`. -/
def stripAmpGo : Nat → List Char → List Char
  | 0, l => l
  | _ + 1, [] => []
  | fuel + 1, c :: cs =>
    if c == '&' && !(cs.takeWhile pyLowerAlpha).isEmpty then
      stripAmpGo fuel (cs.dropWhile pyLowerAlpha)
    else c :: stripAmpGo fuel cs

/-- Embedding of `re.sub(r'&[a-z]+', '', text)`. -/
def stripAmp (l : List Char) : List Char := stripAmpGo l.length l

/-- The character class `[+\d\.]`. -/
def plusDigitDot (c : Char) : Bool := c == '+' || pyDigit c || c == '.'

/-- Fuelled worker for `stripRuns`. -/
def stripRunsGo (p : Char → Bool) : Nat → List Char → List Char
  | 0, l => l
  | _ + 1, [] => []
  | fuel + 1, c :: cs =>
    if p c then stripRunsGo p fuel (cs.dropWhile p)
    else c :: stripRunsGo p fuel cs

/-- Embedding of `re.sub(r'[class]+', '', text)`: remove every maximal run of
characters of the class. -/
def stripRuns (p : Char → Bool) (l : List Char) : List Char :=
  stripRunsGo p l.length l

/-- Fuelled worker for `replaceSub`. -/
def replaceSubGo (pat repl : List Char) : Nat → List Char → List Char
  | 0, l => l
  | _ + 1, [] => []
  | fuel + 1, c :: cs =>
    if pat.isPrefixOf (c :: cs) then
      repl ++ replaceSubGo pat repl fuel ((c :: cs).drop pat.length)
    else c :: replaceSubGo pat repl fuel cs

/-- Python `str.replace(pat, repl)`: left-to-right non-overlapping. -/
def replaceSub (pat repl : List Char) (l : List Char) : List Char :=
  replaceSubGo pat repl l.length l

/-- The interesting, fallible part of `clean_utterance` (everything inside the
`try` block): the only partial operation is the `[1]` indexing into
`line.split(':', 1)`, guarded by `':' in line`; a line without a colon
returns the empty string directly. -/
def clean_utterance_body (line : List Char) : Option (List Char) :=
  if line.contains ':' then
    ((pySplit1 ':' line).get? 1).map (fun t0 =>
      let t1 := pyStrip t0
      let t2 := stripDelims '[' ']' t1
      let t3 := stripDelims '<' '>' t2
      let t4 := stripAmp t3
      let t5 := stripRuns plusDigitDot t4
      let t6 := replaceSub "xxx".data [] t5
      let t7 := replaceSub "yyy".data [] t6
      let t8 := replaceSub "_".data " ".data t7
      pyStrip (t8.filter (fun c => pyWordChar c || pySpace c)))
  else some []

/-- `clean_utterance`: the `except` clause turns any failure of the body into
the empty string. -/
def clean_utterance (line : List Char) : List Char :=
  (clean_utterance_body line).getD []

/-! ### The naturalistic cleaner (`scripts/dld_naturalistic_data_extractor.py`) -/

/-- Fuelled worker for `collapseWs`. -/
def collapseWsGo : Nat → List Char → List Char
  | 0, l => l
  | _ + 1, [] => []
  | fuel + 1, c :: cs =>
    if pySpace c then ' ' :: collapseWsGo fuel (cs.dropWhile pySpace)
    else c :: collapseWsGo fuel cs

/-- Embedding of `re.sub(r'\s+', ' ', text)`. -/
def collapseWs (l : List Char) : List Char := collapseWsGo l.length l

/-- Fuelled worker for `smartAmp`. -/
def smartAmpGo : Nat → List Char → List Char
  | 0, l => l
  | _ + 1, [] => []
  | fuel + 1, c :: cs =>
    if c == '&' && !(cs.takeWhile pyLowerAlpha).isEmpty then
      cs.takeWhile pyLowerAlpha ++ smartAmpGo fuel (cs.dropWhile pyLowerAlpha)
    else c :: smartAmpGo fuel cs

/-- Embedding of `re.sub(r'&([a-z]+)', r'\1', text)`: drop the ampersand,
keep the spoken sound. -/
def smartAmp (l : List Char) : List Char := smartAmpGo l.length l

/-- Fuelled worker for `stripCaret`. -/
def stripCaretGo : Nat → List Char → List Char
  | 0, l => l
  | _ + 1, [] => []
  | fuel + 1, c :: cs =>
    if c == '[' then
      match cs with
      | '^' :: cs2 =>
        match findCloseNoNL ']' cs2 with
        | some rest => stripCaretGo fuel rest
        | none => c :: stripCaretGo fuel cs
      | _ => c :: stripCaretGo fuel cs
    else c :: stripCaretGo fuel cs

/-- Embedding of `re.sub(r'\[\^.*?\]', '', text)`. -/
def stripCaret (l : List Char) : List Char := stripCaretGo l.length l

/-- `smart_clean_utterance`: returns `none` (Python `None`) for lines that do
not carry the tracked-speaker prefix, otherwise the cleaned string. -/
def smart_clean_utterance (line : List Char) : Option (List Char) :=
  if "*CHI:".data.isPrefixOf line then
    ((pySplit1 ':' line).get? 1).map (fun t0 =>
      let t1 := pyStrip t0
      let t2 := replaceSub "[//]".data "...".data t1
      let t3 := replaceSub "[/]".data [] t2
      let t4 := smartAmp t3
      let t5 := stripCaret t4
      let t6 := stripDelims '[' ']' t5
      let t7 := replaceSub "<".data [] t6
      let t8 := replaceSub ">".data [] t7
      let t9 := replaceSub "xxx".data [] t8
      let t10 := replaceSub "yyy".data [] t9
      let t11 := replaceSub "(.)".data ",".data t10
      let t12 := replaceSub "(..)".data "...".data t11
      let t13 := pyStrip (collapseWs t12)
      let t14 := replaceSub " .".data ".".data t13
      replaceSub " ?".data "?".data t14)
  else none

/-! ### The gem-extraction loop (`dld_data_extractor.py`, module level)

The loop walks the file lines keeping the current gem label and the list of
cleaned utterances collected since the last `@G:` marker; a new marker saves
the previous story when it holds more than two utterances, and the last open
story is saved under the same rule at end of file. -/

structure Meta where
  corpus : List Char
  filename : List Char
  child_id : List Char
  age_raw : List Char
  diagnosis : List Char

structure GemRow where
  meta : Meta
  story_id : List Char
  transcript : List Char

structure GemState where
  gem : List Char
  cur : List (List Char)
  rows : List GemRow

/-- The save step guarded by `len(current_transcript) > 2`. -/
def saveStory (meta : Meta) (gem : List Char) (cur : List (List Char))
    (rows : List GemRow) : List GemRow :=
  if 2 < cur.length then rows ++ [⟨meta, gem, joinSpace cur⟩] else rows

/-- One line of the gem-extraction loop. -/
def gemStep (meta : Meta) (st : GemState) (line : List Char) : GemState :=
  if "@G:".data.isPrefixOf line then
    ⟨pyStrip (replaceSub "@G:".data [] line), [], saveStory meta st.gem st.cur st.rows⟩
  else if "*CHI:".data.isPrefixOf line then
    let cleaned := clean_utterance line
    if cleaned.isEmpty then st else ⟨st.gem, st.cur ++ [cleaned], st.rows⟩
  else st

/-- The whole gem-extraction loop over the lines of one file, including the
end-of-file flush. -/
def extract_gems (meta : Meta) (lines : List (List Char)) : List GemRow :=
  let fin := lines.foldl (gemStep meta) ⟨"General".data, [], []⟩
  saveStory meta fin.gem fin.cur fin.rows

/-- Observer used to state the segment-threshold property: the same walk,
but collecting every segment (the utterance list closed at each `@G:`
boundary, plus the final one) regardless of its size. -/
def segStep (acc : List (List Char) × List (List (List Char))) (line : List Char) :
    List (List Char) × List (List (List Char)) :=
  if "@G:".data.isPrefixOf line then ([], acc.2 ++ [acc.1])
  else if "*CHI:".data.isPrefixOf line then
    let cleaned := clean_utterance line
    if cleaned.isEmpty then acc else (acc.1 ++ [cleaned], acc.2)
  else acc

/-- All segments of a file, in order, including the final one. -/
def collected_segments (lines : List (List Char)) : List (List (List Char)) :=
  let fin := lines.foldl segStep ([], [])
  fin.2 ++ [fin.1]

/-! ### The frequency aggregator (`extract_error_frequencies.py`, `main`)

File reports are pairs of a filename and the per-file code-to-count mapping
already extracted from that file; `main` collects the union of codes over
all reports, sorts it, and emits one row per report with `get(code, 0)`
cells. -/

/-- Python string comparison: lexicographic by code point, a proper prefix
being smaller. -/
def strLt : List Char → List Char → Bool
  | [], [] => false
  | [], _ :: _ => true
  | _ :: _, [] => false
  | a :: as, b :: bs =>
    if a.toNat < b.toNat then true
    else if b.toNat < a.toNat then false
    else strLt as bs

/-- The non-strict order used to state sortedness of the column list. -/
def strLe (a b : List Char) : Bool := !(strLt b a)

/-- First pass: `all_error_codes.update(error_freqs.keys())` over all files;
the set is modelled as a deduplicated list. -/
def collect_codes (fd : List (List Char × List (List Char × Nat))) : List (List Char) :=
  (fd.foldl (fun acc p => acc ++ p.2.map Prod.fst) []).dedup

/-- `sorted(all_error_codes)`. -/
def sorted_codes (fd : List (List Char × List (List Char × Nat))) : List (List Char) :=
  (collect_codes fd).insertionSort (fun a b => strLe a b = true)

/-- `error_freqs.get(error_code, 0)`. -/
def freq_get (freqs : List (List Char × Nat)) (code : List Char) : Nat :=
  (freqs.lookup code).getD 0

/-- The emitted table: the header row and one row per file report, each row
being the filename and the zero-filled count cells in column order. -/
def freq_table (fd : List (List Char × List (List Char × Nat))) :
    List (List Char) × List (List Char × List Nat) :=
  ("File".data :: sorted_codes fd,
   fd.map (fun p => (p.1, (sorted_codes fd).map (freq_get p.2))))

/-! ### The persistence discipline of the annotation scripts

Every annotating script persists with `open(file_path, 'w')` followed by
`writelines(lines)`.  Modelled from the source's write discipline: opening
an existing file with mode `'w'` truncates it to empty immediately, and
`writelines` then appends the elements in order, so the observable on-disk
contents are the empty file followed by every prefix of the new content. -/

def write_in_place_states (newLines : List (List Char)) : List (List Char) :=
  newLines.scanl (fun acc l => acc ++ l) []

/-! ### The CLAN error-coding rewrite (`scripts/add_clan_error_coding.py`) -/

/-- The `error_patterns` table of `analyze_and_add_error_coding`:
pattern word, correction, optional error code. -/
def ERROR_PATTERNS : List (List Char × List Char × Option (List Char)) :=
  [("go".data, "went".data, some "[* m:base:ed]".data),
   ("make".data, "made".data, some "[* m:base:ed]".data),
   ("dig".data, "dug".data, some "[* m:base:ed]".data),
   ("lift".data, "lifted".data, some "[* m:0ed]".data),
   ("pat".data, "patted".data, some "[* m:0ed]".data),
   ("work".data, "worked".data, some "[* m:0ed]".data),
   ("play".data, "played".data, some "[* m:0ed]".data),
   ("feel".data, "felt".data, some "[* m:base:ed]".data),
   ("cry".data, "cried".data, some "[* m:0ed]".data),
   ("smash".data, "smashed".data, some "[* m:0ed]".data),
   ("fall".data, "fell".data, some "[* m:base:ed]".data),
   ("Rabbit".data, "0the Rabbit".data, none),
   ("Dog".data, "0the Dog".data, none),
   ("Castle".data, "0the Castle".data, none),
   ("She".data, "0the She".data, none),
   ("He".data, "0the He".data, none),
   ("no".data, "not".data, some "[* s:r]".data),
   ("wanna".data, "wanted to".data, some "[* m:0ed]".data),
   ("gogo".data, "went".data, some "[* m:base:ed]".data)]

/-- The replacement text built for one pattern entry. -/
def mkRepl (word corr : List Char) : Option (List Char) → List Char
  | some code => word ++ " [: ".data ++ corr ++ "] ".data ++ code
  | none => corr

/-- Fuelled worker for `findAllLit`: all non-overlapping `\b word \b` match
spans, as `(start, end)` index pairs. -/
def findAllLitGo (word : List Char) : Nat → Nat → Bool → List Char → List (Nat × Nat)
  | 0, _, _, _ => []
  | _ + 1, _, _, [] => []
  | fuel + 1, pos, prevW, c :: cs =>
    if prevW != pyWordChar c then
      match matchLitAt word (c :: cs) with
      | some (m, r) =>
        (pos, pos + m.length) ::
          findAllLitGo word fuel (pos + m.length) (pyWordChar (m.getLastD ' ')) r
      | none => findAllLitGo word fuel (pos + 1) (pyWordChar c) cs
    else findAllLitGo word fuel (pos + 1) (pyWordChar c) cs

/-- Embedding of `re.finditer(rf'\b{word}\b', s)` span extraction.  The
iterator walks the string value passed to `finditer`; later rebindings of
the Python variable do not affect it, so the spans always refer to this
string even while the loop body rewrites the variable. -/
def findAllLit (word : List Char) (s : List Char) : List (Nat × Nat) :=
  findAllLitGo word s.length 0 false s

/-- `modified_utterance[:start] + replacement + modified_utterance[end:]`
applied for each stale span in order. -/
def applySpans (repl : List Char) (spans : List (Nat × Nat)) (s : List Char) :
    List Char :=
  spans.foldl (fun cur sp => cur.take sp.1 ++ repl ++ cur.drop sp.2) s

/-- Nouns that the word pass prefixes with `0` when no determiner precedes. -/
def NOUN_WORDS : List (List Char) :=
  ["rabbit".data, "dog".data, "castle".data, "sand".data, "bucket".data,
   "mistake".data, "sandcastle".data, "sandbox".data, "shovels".data,
   "work".data, "fun".data]

/-- Determiners checked on the preceding word. -/
def DET_WORDS : List (List Char) :=
  ["the".data, "a".data, "an".data, "his".data, "her".data, "their".data]

/-- The word-by-word article pass of `analyze_and_add_error_coding`;
`prev` is the previous word of the original word list. -/
def processWords : Option (List Char) → List (List Char) → List (List Char)
  | _, [] => []
  | prev, w :: ws =>
    (if "[:".data.isPrefixOf w || "[*]".data.isPrefixOf w || "0".data.isPrefixOf w then w
     else if (lowerStr w ∈ NOUN_WORDS) &&
             (match prev with
              | none => true
              | some pw => !(lowerStr pw ∈ DET_WORDS)) then '0' :: w
     else w) :: processWords (some w) ws

/-- `analyze_and_add_error_coding`: non-tracked lines are returned unchanged;
tracked lines are rebuilt as `*CHI:\t` plus the transformed utterance. -/
def analyze_and_add_error_coding (line : List Char) : List Char :=
  if !("*CHI:".data.isPrefixOf line) then line
  else
    let utterance := pyStrip (line.drop 6)
    let modified := ERROR_PATTERNS.foldl (fun s pat =>
      applySpans (mkRepl pat.1 pat.2.1 pat.2.2) (findAllLit pat.1 s) s) utterance
    "*CHI:\t".data ++ joinSpace (processWords none (pySplitWs modified))

/-- `add_error_coding_to_file` on the list of lines of one file: only lines
with the `*CHI:` prefix are transformed (stripped, rewritten, newline added
back); every other line is appended unchanged. -/
def add_error_coding_lines (lines : List (List Char)) : List (List Char) :=
  lines.map (fun line =>
    if "*CHI:".data.isPrefixOf line then
      analyze_and_add_error_coding (pyStrip line) ++ ['\n']
    else line)

end ICL

namespace ICL

/-! ## Theorems -/

/-! ### Basic facts about the scanning machinery -/

theorem matchWordCI_eq (p : List Char) :
    ∀ s m r, matchWordCI p s = some (m, r) → s = m ++ r ∧ m.length = p.length := by
  induction p with
  | nil => intro s m r h; simp [matchWordCI] at h; simp [h.1, h.2]
  | cons a ps ih =>
    intro s m r h
    cases s with
    | nil => simp [matchWordCI] at h
    | cons c cs =>
      simp only [matchWordCI] at h
      by_cases hc : lcEq a c
      · simp only [hc, if_true, Option.map_eq_some'] at h
        obtain ⟨⟨m', r'⟩, hmr, hh⟩ := h
        obtain ⟨h1, h2⟩ := ih cs m' r' hmr
        simp only [Prod.mk.injEq] at hh
        obtain ⟨hm, hr⟩ := hh
        subst hm hr
        simp [h1, h2]
      · simp [hc] at h

theorem takeSpaces1_eq {l sp r : List Char} (h : takeSpaces1 l = some (sp, r)) :
    l = sp ++ r ∧ sp ≠ [] ∧ (∀ c ∈ sp, pySpace c = true) := by
  unfold takeSpaces1 at h
  by_cases he : (l.takeWhile pySpace).isEmpty
  · simp [he] at h
  · rw [if_neg he] at h
    simp only [Option.some_inj, Prod.mk.injEq] at h
    obtain ⟨h1, h2⟩ := h
    subst h1 h2
    refine ⟨(List.takeWhile_append_dropWhile pySpace l).symm, ?_, ?_⟩
    · simpa [List.isEmpty_iff] using he
    · intro c hc; exact List.mem_takeWhile_imp hc

theorem matchPairCore_eq {subject verb s m r : List Char}
    (h : matchPairCore subject verb s = some (m, r)) :
    s = m ++ r ∧ 1 ≤ m.length := by
  unfold matchPairCore at h
  split at h
  · simp at h
  next m1 r1 h1 =>
    split at h
    · simp at h
    next sp r2 h2 =>
      split at h
      · simp at h
      next m2 r3 h3 =>
        split at h
        · simp only [Option.some_inj, Prod.mk.injEq] at h
          obtain ⟨hm, hr⟩ := h
          obtain ⟨e1, _⟩ := matchWordCI_eq subject s m1 r1 h1
          obtain ⟨e2, hsp, _⟩ := takeSpaces1_eq h2
          obtain ⟨e3, _⟩ := matchWordCI_eq verb r2 m2 r3 h3
          subst hm hr
          constructor
          · rw [e1, e2, e3]; simp
          · have : sp.length ≠ 0 := by simpa [List.length_eq_zero] using hsp
            simp [List.length_append]; omega
        · simp at h

theorem matchPairCore_len {subject verb s m r : List Char}
    (h : matchPairCore subject verb s = some (m, r)) : r.length < s.length := by
  obtain ⟨he, hl⟩ := matchPairCore_eq h
  rw [he]; simp [List.length_append]; omega

theorem subPairGo_fuel (subject verb ins : List Char) :
    ∀ f1 f2 : Nat, ∀ prevW : Bool, ∀ l : List Char, l.length ≤ f1 → l.length ≤ f2 →
      subPairGo subject verb ins f1 prevW l = subPairGo subject verb ins f2 prevW l := by
  intro f1
  induction f1 with
  | zero =>
    intro f2 prevW l h1 _
    have : l = [] := List.length_eq_zero.mp (Nat.le_zero.mp h1)
    subst this
    cases f2 <;> simp [subPairGo]
  | succ f1' ih =>
    intro f2 prevW l h1 h2
    cases l with
    | nil => cases f2 <;> simp [subPairGo]
    | cons c cs =>
      cases f2 with
      | zero => simp at h2
      | succ f2' =>
        simp only [subPairGo]
        simp only [List.length_cons, Nat.succ_le_succ_iff] at h1 h2
        by_cases hb : prevW != pyWordChar c
        · simp only [hb, if_true]
          cases hm : matchPairCore subject verb (c :: cs) with
          | none =>
            dsimp only
            rw [ih f2' (pyWordChar c) cs h1 h2]
          | some mr =>
            obtain ⟨m, r⟩ := mr
            have hlen := matchPairCore_len hm
            simp only [List.length_cons] at hlen
            dsimp only
            rw [ih f2' (pyWordChar (m.getLastD ' ')) r (by omega) (by omega)]
        · simp only [Bool.not_eq_true] at hb
          simp only [hb]
          rw [ih f2' (pyWordChar c) cs h1 h2]
          simp

theorem subPairAll_nil (subject verb ins : List Char) (prevW : Bool) :
    subPairAll subject verb ins prevW [] = [] := rfl

theorem subPairAll_cons (subject verb ins : List Char) (prevW : Bool)
    (c : Char) (cs : List Char) :
    subPairAll subject verb ins prevW (c :: cs) =
      if prevW != pyWordChar c then
        match matchPairCore subject verb (c :: cs) with
        | some (m, r) =>
          m ++ ins ++ subPairAll subject verb ins (pyWordChar (m.getLastD ' ')) r
        | none => c :: subPairAll subject verb ins (pyWordChar c) cs
      else c :: subPairAll subject verb ins (pyWordChar c) cs := by
  show subPairGo subject verb ins (cs.length + 1) prevW (c :: cs) = _
  simp only [subPairGo]
  by_cases hb : prevW != pyWordChar c
  · simp only [hb, if_true]
    cases hm : matchPairCore subject verb (c :: cs) with
    | none =>
      dsimp only
      rfl
    | some mr =>
      obtain ⟨m, r⟩ := mr
      have hlen := matchPairCore_len hm
      simp only [List.length_cons] at hlen
      dsimp only
      rw [subPairGo_fuel _ _ _ cs.length r.length _ _ (by omega) le_rfl]
      rfl
  · simp only [Bool.not_eq_true] at hb
    simp only [hb]
    rfl

theorem removeGo03_fuel :
    ∀ f1 f2 : Nat, ∀ l : List Char, l.length ≤ f1 → l.length ≤ f2 →
      removeGo03 f1 l = removeGo03 f2 l := by
  intro f1
  induction f1 with
  | zero =>
    intro f2 l h1 _
    have : l = [] := List.length_eq_zero.mp (Nat.le_zero.mp h1)
    subst this
    cases f2 <;> simp [removeGo03]
  | succ f1' ih =>
    intro f2 l h1 h2
    cases l with
    | nil => cases f2 <;> simp [removeGo03]
    | cons c cs =>
      cases f2 with
      | zero => simp at h2
      | succ f2' =>
        simp only [removeGo03]
        simp only [List.length_cons, Nat.succ_le_succ_iff] at h1 h2
        by_cases hp : pySpace c && CODE03.isPrefixOf cs
        · simp only [hp, if_true]
          have hd := List.length_drop 11 cs
          exact ih f2' (cs.drop 11) (by omega) (by omega)
        · simp only [Bool.not_eq_true] at hp
          simp only [hp]
          rw [ih f2' cs h1 h2]
          simp

theorem removeAll03_nil : removeAll03 [] = [] := rfl

theorem removeAll03_cons (c : Char) (cs : List Char) :
    removeAll03 (c :: cs) =
      if pySpace c && CODE03.isPrefixOf cs then removeAll03 (cs.drop 11)
      else c :: removeAll03 cs := by
  show removeGo03 (cs.length + 1) (c :: cs) = _
  simp only [removeGo03]
  by_cases hp : pySpace c && CODE03.isPrefixOf cs
  · simp only [hp, if_true]
    have hd := List.length_drop 11 cs
    exact removeGo03_fuel cs.length (cs.drop 11).length (cs.drop 11) (by omega) le_rfl
  · simp only [Bool.not_eq_true] at hp
    simp only [hp]
    rfl

/-! ### Character-class lemmas -/

theorem pyToLower_of_not_upper {c : Char} (h : pyUpper c = false) :
    pyToLower c = c := by
  simp [pyToLower, h]

theorem pyUpper_eq_false_of_lower {c : Char} (h : pyLowerAlpha c = true) :
    pyUpper c = false := by
  simp only [pyLowerAlpha, Bool.and_eq_true, decide_eq_true_eq] at h
  simp only [pyUpper, Bool.and_eq_false_iff, decide_eq_false_iff_not]
  omega

theorem pyLowerAlpha_pyToLower {c : Char} (h : pyAlpha c = true) :
    pyLowerAlpha (pyToLower c) = true := by
  simp only [pyAlpha, Bool.or_eq_true] at h
  rcases h with h | h
  · simp only [pyToLower, h, if_true]
    simp only [pyUpper, Bool.and_eq_true, decide_eq_true_eq] at h
    obtain ⟨h1, h2⟩ := h
    set n := c.toNat + 32 with hn
    have hb1 : 97 ≤ n := by omega
    have hb2 : n ≤ 122 := by omega
    simp only [pyLowerAlpha]
    interval_cases n <;> decide
  · rw [pyToLower_of_not_upper (pyUpper_eq_false_of_lower h)]
    exact h

/-- A character that compares case-insensitively equal to a lowercase letter
is itself a letter. -/
theorem pyAlpha_of_lcEq {p c : Char} (hp : pyLowerAlpha p = true)
    (h : lcEq p c = true) : pyAlpha c = true := by
  simp only [lcEq, beq_iff_eq] at h
  rw [pyToLower_of_not_upper (pyUpper_eq_false_of_lower hp)] at h
  by_cases hu : pyUpper c = true
  · simp [pyAlpha, hu]
  · have hu' : pyUpper c = false := by simpa using hu
    rw [pyToLower_of_not_upper hu'] at h
    subst h
    simp [pyAlpha, hp]

theorem spanChar_of_lcEq {p c : Char} (hp : pyLowerAlpha p = true)
    (h : lcEq p c = true) : spanChar c = true := by
  simp [spanChar, pyAlpha_of_lcEq hp h]

theorem matchWordCI_span (p : List Char) (hp : ∀ a ∈ p, pyLowerAlpha a = true) :
    ∀ s m r, matchWordCI p s = some (m, r) → ∀ c ∈ m, spanChar c = true := by
  induction p with
  | nil =>
    intro s m r h
    simp [matchWordCI] at h
    simp [h.1]
  | cons a ps ih =>
    intro s m r h
    cases s with
    | nil => simp [matchWordCI] at h
    | cons c cs =>
      simp only [matchWordCI] at h
      by_cases hc : lcEq a c
      · simp only [hc, if_true, Option.map_eq_some'] at h
        obtain ⟨⟨m', r'⟩, hmr, hh⟩ := h
        simp only [Prod.mk.injEq] at hh
        obtain ⟨hm, hr⟩ := hh
        subst hm hr
        intro x hx
        rcases List.mem_cons.mp hx with hx | hx
        · subst hx
          exact spanChar_of_lcEq (hp a (List.mem_cons_self a ps)) hc
        · exact ih (fun b hb => hp b (List.mem_cons_of_mem a hb)) cs m' r' hmr x hx
      · simp [hc] at h

theorem matchPairCore_span {subject verb s m r : List Char}
    (hs : ∀ a ∈ subject, pyLowerAlpha a = true)
    (hv : ∀ a ∈ verb, pyLowerAlpha a = true)
    (h : matchPairCore subject verb s = some (m, r)) :
    (∀ c ∈ m, spanChar c = true) ∧ subject.length + verb.length + 1 ≤ m.length := by
  unfold matchPairCore at h
  split at h
  · simp at h
  next m1 r1 h1 =>
    split at h
    · simp at h
    next sp r2 h2 =>
      split at h
      · simp at h
      next m2 r3 h3 =>
        split at h
        · simp only [Option.some_inj, Prod.mk.injEq] at h
          obtain ⟨hm, hr⟩ := h
          obtain ⟨_, hl1⟩ := matchWordCI_eq subject s m1 r1 h1
          obtain ⟨_, hsp, hspc⟩ := takeSpaces1_eq h2
          obtain ⟨_, hl2⟩ := matchWordCI_eq verb r2 m2 r3 h3
          subst hm hr
          constructor
          · intro c hc
            simp only [List.mem_append] at hc
            rcases hc with hc | hc | hc
            · exact matchWordCI_span subject hs s m1 r1 h1 c hc
            · simp [spanChar, hspc c hc]
            · exact matchWordCI_span verb hv r2 m2 r3 h3 c hc
          · have : sp.length ≠ 0 := by simpa [List.length_eq_zero] using hsp
            simp only [List.length_append]
            omega
        · simp at h

/-! ### Substring test and prefix utilities -/

theorem containsSub_iff (pat : List Char) :
    ∀ l, containsSub pat l = true ↔ pat <:+: l := by
  intro l
  induction l with
  | nil => simp [containsSub, List.isEmpty_iff, List.infix_nil]
  | cons c cs ih =>
    simp [containsSub, List.isPrefixOf_iff_prefix, ih, List.infix_cons_iff]

theorem prefix_getD {p l : List Char} (h : p <+: l) {i : Nat} (hi : i < p.length) :
    l.getD i ' ' = p.getD i ' ' := by
  obtain ⟨t, rfl⟩ := h
  rw [List.getD_append _ _ _ _ hi]

theorem getD_mem {l : List Char} {i : Nat} (h : i < l.length) : l.getD i ' ' ∈ l := by
  rw [List.getD_eq_getElem l ' ' h]
  exact List.getElem_mem h

/-! ### Why the inserted 03s code survives the scans intact

Every tail of the code `[* m:03s:a]` exposes, within its first three
characters, a character that is neither a letter nor whitespace, while any
agreement-match span consists of letters and whitespace only and is at
least three characters long: so no tail of the code can begin inside or at
a match span, and the substitution scan copies the code (or any tail of it)
only from positions where the input already carried it. -/

theorem code03_bridge :
    ∀ k : Nat, k < 11 →
      ∃ i, i < min 3 (11 - k) ∧ spanChar ((CODE03.drop k).getD i ' ') = false := by
  decide

theorem code03_drop_prefix_subPairAll
    (subject verb ins : List Char)
    (hs : ∀ a ∈ subject, pyLowerAlpha a = true)
    (hv : ∀ a ∈ verb, pyLowerAlpha a = true)
    (hs2 : 2 ≤ subject.length) :
    ∀ n : Nat, ∀ t : List Char, t.length ≤ n → ∀ prevW : Bool, ∀ k : Nat, k < 11 →
      CODE03.drop k <+: subPairAll subject verb ins prevW t →
      CODE03.drop k <+: t := by
  intro n
  induction n with
  | zero =>
    intro t ht prevW k hk hpre
    have hnil : t = [] := List.length_eq_zero.mp (Nat.le_zero.mp ht)
    subst hnil
    rw [subPairAll_nil] at hpre
    have := List.prefix_nil.mp hpre
    have hlen : (CODE03.drop k).length = 11 - k := by simp [CODE03]
    rw [this] at hlen
    simp at hlen
    omega
  | succ n' ih =>
    intro t ht prevW k hk hpre
    cases t with
    | nil =>
      rw [subPairAll_nil] at hpre
      have := List.prefix_nil.mp hpre
      have hlen : (CODE03.drop k).length = 11 - k := by simp [CODE03]
      rw [this] at hlen
      simp at hlen
      omega
    | cons c cs =>
      simp only [List.length_cons, Nat.succ_le_succ_iff] at ht
      rw [subPairAll_cons] at hpre
      have keep :
          CODE03.drop k <+: c :: subPairAll subject verb ins (pyWordChar c) cs →
          CODE03.drop k <+: c :: cs := by
        intro hp
        have hcode : CODE03.drop k = CODE03[k] :: CODE03.drop (k + 1) :=
          List.drop_eq_getElem_cons (by simpa [CODE03] using hk)
        rw [hcode] at hp
        obtain ⟨hc, hrest⟩ := List.cons_prefix_cons.mp hp
        have htail : CODE03.drop (k + 1) <+: cs := by
          rcases Nat.lt_or_ge (k + 1) 11 with hlt | hge
          · exact ih cs ht (pyWordChar c) (k + 1) hlt hrest
          · have : CODE03.drop (k + 1) = [] :=
              List.drop_eq_nil_of_le (by simpa [CODE03] using hge)
            rw [this]
            exact List.nil_prefix
        rw [hcode]
        exact List.cons_prefix_cons.mpr ⟨hc, htail⟩
      by_cases hb : (prevW != pyWordChar c) = true
      · rw [if_pos hb] at hpre
        cases hm : matchPairCore subject verb (c :: cs) with
        | none =>
          rw [hm] at hpre
          exact keep hpre
        | some mr =>
          obtain ⟨m, r⟩ := mr
          rw [hm] at hpre
          dsimp only at hpre
          obtain ⟨hspan, hmlen⟩ := matchPairCore_span hs hv hm
          obtain ⟨i, hi, hns⟩ := code03_bridge k hk
          have him : i < m.length := by omega
          have hik : i < (CODE03.drop k).length := by
            simp only [List.length_drop]
            have : CODE03.length = 11 := by decide
            omega
          have hassoc : m ++ ins ++ subPairAll subject verb ins
              (pyWordChar (m.getLastD ' ')) r =
              m ++ (ins ++ subPairAll subject verb ins
                (pyWordChar (m.getLastD ' ')) r) := by
            simp [List.append_assoc]
          rw [hassoc] at hpre
          have he1 := prefix_getD hpre hik
          rw [List.getD_append _ _ _ _ him] at he1
          have hmem := getD_mem him
          have := hspan _ hmem
          rw [← he1] at hns
          rw [this] at hns
          simp at hns
      · rw [if_neg hb] at hpre
        exact keep hpre

theorem code03_not_prefix_subPairAll
    (subject verb ins : List Char)
    (hs : ∀ a ∈ subject, pyLowerAlpha a = true)
    (hv : ∀ a ∈ verb, pyLowerAlpha a = true)
    (hs2 : 2 ≤ subject.length)
    {t : List Char} (hno : ¬ CODE03 <:+: t) (prevW : Bool) :
    ¬ CODE03 <+: subPairAll subject verb ins prevW t := by
  intro hp
  have h0 : CODE03.drop 0 <+: subPairAll subject verb ins prevW t := by
    simpa using hp
  have := code03_drop_prefix_subPairAll subject verb ins hs hv hs2
    t.length t le_rfl prevW 0 (by omega) h0
  simp only [List.drop_zero] at this
  exact hno this.isInfix

/-! ### The removal scan undoes exactly the inserted blocks -/

theorem removeAll03_no_code :
    ∀ t : List Char, ¬ CODE03 <:+: t → removeAll03 t = t := by
  intro t
  induction t with
  | nil => intro _; rfl
  | cons c cs ih =>
    intro hno
    rw [removeAll03_cons]
    have hpf : CODE03.isPrefixOf cs = false := by
      by_contra hx
      have hp : CODE03 <+: cs := by simpa using hx
      exact hno (List.infix_cons hp.isInfix)
    rw [hpf]
    simp only [Bool.and_false]
    rw [if_neg (by simp), ih (fun h => hno (List.infix_cons h))]

theorem spanChar_ne_lbracket {c : Char} (h : spanChar c = true) : c ≠ '[' := by
  intro he
  subst he
  simp [spanChar, pyAlpha, pyUpper, pyLowerAlpha, pySpace] at h

theorem removeAll03_span_walk :
    ∀ m : List Char, (∀ c ∈ m, spanChar c = true) → ∀ Z : List Char,
      removeAll03 (m ++ ' ' :: (CODE03 ++ Z)) = m ++ removeAll03 Z := by
  intro m
  induction m with
  | nil =>
    intro _ Z
    simp only [List.nil_append]
    rw [removeAll03_cons]
    have h1 : CODE03.isPrefixOf (CODE03 ++ Z) = true :=
      List.isPrefixOf_iff_prefix.mpr (List.prefix_append _ _)
    have h2 : pySpace ' ' = true := by decide
    rw [h1, h2]
    simp only [Bool.and_true, if_true]
    have hd : (CODE03 ++ Z).drop 11 = Z := by
      have : (11 : Nat) = CODE03.length := by decide
      rw [this, List.drop_left]
    rw [hd]
  | cons a m' ih =>
    intro hm Z
    have hstep : (a :: m') ++ ' ' :: (CODE03 ++ Z) = a :: (m' ++ ' ' :: (CODE03 ++ Z)) := by
      simp
    rw [hstep, removeAll03_cons]
    have hpf : CODE03.isPrefixOf (m' ++ ' ' :: (CODE03 ++ Z)) = false := by
      by_contra hx
      have hp : CODE03 <+: m' ++ ' ' :: (CODE03 ++ Z) := by simpa using hx
      have hcodeHead : CODE03 = '[' :: "* m:03s:a]".data := rfl
      rw [hcodeHead] at hp
      cases m' with
      | nil =>
        simp only [List.nil_append] at hp
        obtain ⟨habs, _⟩ := List.cons_prefix_cons.mp hp
        simp at habs
      | cons b m'' =>
        simp only [List.cons_append] at hp
        obtain ⟨habs, _⟩ := List.cons_prefix_cons.mp hp
        have hb : spanChar b = true := hm b (by simp)
        exact spanChar_ne_lbracket hb habs.symm
    rw [hpf]
    simp only [Bool.and_false, if_false]
    rw [ih (fun c hc => hm c (by simp [hc])) Z]
    simp

/-- The substitution scan of the 03s annotator is undone exactly by the
removal scan of the revert script, provided the input text does not already
carry the code. -/
theorem removeAll03_subPairAll
    (subject verb : List Char)
    (hs : ∀ a ∈ subject, pyLowerAlpha a = true)
    (hv : ∀ a ∈ verb, pyLowerAlpha a = true)
    (hs2 : 2 ≤ subject.length) :
    ∀ n : Nat, ∀ t : List Char, t.length ≤ n → ∀ prevW : Bool, ¬ CODE03 <:+: t →
      removeAll03 (subPairAll subject verb (' ' :: CODE03) prevW t) = t := by
  intro n
  induction n with
  | zero =>
    intro t ht prevW _
    have hnil : t = [] := List.length_eq_zero.mp (Nat.le_zero.mp ht)
    subst hnil
    rw [subPairAll_nil]
    rfl
  | succ n' ih =>
    intro t ht prevW hno
    cases t with
    | nil => rw [subPairAll_nil]; rfl
    | cons c cs =>
      simp only [List.length_cons, Nat.succ_le_succ_iff] at ht
      rw [subPairAll_cons]
      have hnocs : ¬ CODE03 <:+: cs := fun h => hno (List.infix_cons h)
      have keep :
          removeAll03 (c :: subPairAll subject verb (' ' :: CODE03) (pyWordChar c) cs) =
            c :: cs := by
        rw [removeAll03_cons]
        have hpf : CODE03.isPrefixOf
            (subPairAll subject verb (' ' :: CODE03) (pyWordChar c) cs) = false := by
          by_contra hx
          have hp : CODE03 <+: subPairAll subject verb (' ' :: CODE03) (pyWordChar c) cs := by
            simpa using hx
          exact code03_not_prefix_subPairAll subject verb (' ' :: CODE03)
            hs hv hs2 hnocs (pyWordChar c) hp
        rw [hpf]
        simp only [Bool.and_false]
        rw [if_neg (by simp), ih cs ht (pyWordChar c) hnocs]
      by_cases hb : (prevW != pyWordChar c) = true
      · rw [if_pos hb]
        cases hm : matchPairCore subject verb (c :: cs) with
        | none => exact keep
        | some mr =>
          obtain ⟨m, r⟩ := mr
          dsimp only
          obtain ⟨heq, hm1⟩ := matchPairCore_eq hm
          obtain ⟨hspan, _⟩ := matchPairCore_span hs hv hm
          have hassoc : m ++ ' ' :: CODE03 ++ subPairAll subject verb (' ' :: CODE03)
              (pyWordChar (m.getLastD ' ')) r =
              m ++ ' ' :: (CODE03 ++ subPairAll subject verb (' ' :: CODE03)
                (pyWordChar (m.getLastD ' ')) r) := by
            simp
          rw [hassoc, removeAll03_span_walk m hspan]
          have hrlen : r.length ≤ n' := by
            have := matchPairCore_len hm
            simp only [List.length_cons] at this
            omega
          have hnor : ¬ CODE03 <:+: r := by
            intro h
            have hsuf : r <:+: c :: cs := by
              rw [heq]
              exact (List.suffix_append m r).isInfix
            exact hno (h.trans hsuf)
          rw [ih r hrlen (pyWordChar (m.getLastD ' ')) hnor]
          exact heq.symm
      · rw [if_neg hb]
        exact keep

/-- Either the substitution scan inserted nothing (and returned the input),
or its output contains the code. -/
theorem subPairAll_eq_or_code (subject verb : List Char) :
    ∀ n : Nat, ∀ t : List Char, t.length ≤ n → ∀ prevW : Bool,
      subPairAll subject verb (' ' :: CODE03) prevW t = t ∨
        CODE03 <:+: subPairAll subject verb (' ' :: CODE03) prevW t := by
  intro n
  induction n with
  | zero =>
    intro t ht prevW
    have hnil : t = [] := List.length_eq_zero.mp (Nat.le_zero.mp ht)
    subst hnil
    left
    rfl
  | succ n' ih =>
    intro t ht prevW
    cases t with
    | nil => left; rfl
    | cons c cs =>
      simp only [List.length_cons, Nat.succ_le_succ_iff] at ht
      rw [subPairAll_cons]
      have keep :
          subPairAll subject verb (' ' :: CODE03) (pyWordChar c) cs = cs ∨
            CODE03 <:+: subPairAll subject verb (' ' :: CODE03) (pyWordChar c) cs →
          (c :: subPairAll subject verb (' ' :: CODE03) (pyWordChar c) cs = c :: cs ∨
            CODE03 <:+: c :: subPairAll subject verb (' ' :: CODE03) (pyWordChar c) cs) := by
        intro h
        rcases h with h | h
        · left; rw [h]
        · right; exact List.infix_cons h
      by_cases hb : (prevW != pyWordChar c) = true
      · rw [if_pos hb]
        cases hm : matchPairCore subject verb (c :: cs) with
        | none => exact keep (ih cs ht (pyWordChar c))
        | some mr =>
          obtain ⟨m, r⟩ := mr
          dsimp only
          right
          exact ⟨m ++ [' '], subPairAll subject verb (' ' :: CODE03)
            (pyWordChar (m.getLastD ' ')) r, by simp⟩
      · rw [if_neg hb]
        exact keep (ih cs ht (pyWordChar c))

/-! ### The verbs captured by the 03s search are lowercase words -/

theorem lettersRun_alpha : ∀ l : List Char, ∀ c ∈ (lettersRun l).1, pyAlpha c = true := by
  intro l
  induction l with
  | nil => simp [lettersRun]
  | cons c cs ih =>
    by_cases hc : pyAlpha c = true
    · simp only [lettersRun, hc, if_true]
      intro x hx
      rcases List.mem_cons.mp hx with hx | hx
      · subst hx; exact hc
      · exact ih x hx
    · simp [lettersRun, hc]

theorem match03At_lower {subject s v : List Char} (h : match03At subject s = some v) :
    ∀ a ∈ v, pyLowerAlpha a = true := by
  unfold match03At at h
  split at h
  · simp at h
  · split at h
    · simp at h
    · split at h
      · simp at h
      next run r3 heq =>
        split at h
        · simp at h
        · simp only [Option.some_inj] at h
          subst h
          intro a ha
          obtain ⟨x, hx, hax⟩ := List.mem_map.mp ha
          subst hax
          apply pyLowerAlpha_pyToLower
          apply lettersRun_alpha
          rw [heq]
          exact hx

theorem search03_lower {subject : List Char} :
    ∀ l : List Char, ∀ prevW : Bool, ∀ v, search03 subject prevW l = some v →
      ∀ a ∈ v, pyLowerAlpha a = true := by
  intro l
  induction l with
  | nil => intro prevW v h; simp [search03] at h
  | cons c cs ih =>
    intro prevW v h
    simp only [search03] at h
    cases hx : (if (prevW != pyWordChar c) = true then match03At subject (c :: cs) else none) with
    | some w =>
      rw [hx] at h
      simp only [Option.some_orElse, Option.some_inj] at h
      subst h
      by_cases hb : (prevW != pyWordChar c) = true
      · rw [if_pos hb] at hx
        exact match03At_lower hx
      · rw [if_neg hb] at hx
        simp at hx
    | none =>
      rw [hx] at h
      simp only [Option.none_orElse] at h
      exact ih (pyWordChar c) v h

theorem subjects03_facts :
    ∀ s ∈ SUBJECTS_03S, (∀ a ∈ s, pyLowerAlpha a = true) ∧ 2 ≤ s.length := by
  decide

/-- The per-line result of the 03s annotator is either the unchanged line or
one substitution scan for some subject of the table and some lowercase verb. -/
theorem find03_shape (line : List Char) :
    find_and_annotate_03s_line line = line ∨
      ∃ subject verb, subject ∈ SUBJECTS_03S ∧
        (∀ a ∈ verb, pyLowerAlpha a = true) ∧
        find_and_annotate_03s_line line =
          subPairAll subject verb " [* m:03s:a]".data false line := by
  unfold find_and_annotate_03s_line
  by_cases hskip : (containsSub "*[".data line &&
      (containsSub "m:03s:a".data line || containsSub "m:unv:a".data line ||
       containsSub "m:vsg:a".data line)) = true
  · rw [if_pos hskip]
    left
    rfl
  · rw [if_neg hskip]
    have aux : ∀ subs : List (List Char), (∀ x ∈ subs, x ∈ SUBJECTS_03S) → ∀ acc : List Char,
        (acc = line ∨ ∃ subject verb, subject ∈ SUBJECTS_03S ∧
          (∀ a ∈ verb, pyLowerAlpha a = true) ∧
          acc = subPairAll subject verb " [* m:03s:a]".data false line) →
        (subs.foldl (fun acc2 subject =>
            match search03 subject false line with
            | none => acc2
            | some verb =>
              if verb ∈ EXCLUDED_VERBS then acc2
              else subPairAll subject verb " [* m:03s:a]".data false line) acc = line ∨
          ∃ subject verb, subject ∈ SUBJECTS_03S ∧
            (∀ a ∈ verb, pyLowerAlpha a = true) ∧
            subs.foldl (fun acc2 subject =>
              match search03 subject false line with
              | none => acc2
              | some verb =>
                if verb ∈ EXCLUDED_VERBS then acc2
                else subPairAll subject verb " [* m:03s:a]".data false line) acc =
              subPairAll subject verb " [* m:03s:a]".data false line) := by
      intro subs
      induction subs with
      | nil => intro _ acc h; exact h
      | cons s subs' ih =>
        intro hmem acc h
        simp only [List.foldl_cons]
        apply ih (fun x hx => hmem x (List.mem_cons_of_mem s hx))
        cases hsrch : search03 s false line with
        | none =>
          simp only [hsrch]
          exact h
        | some verb =>
          simp only [hsrch]
          by_cases hex : verb ∈ EXCLUDED_VERBS
          · rw [if_pos hex]
            exact h
          · rw [if_neg hex]
            right
            exact ⟨s, verb, hmem s (List.mem_cons_self s subs'),
              search03_lower line false verb hsrch, rfl⟩
    exact aux SUBJECTS_03S (fun x hx => hx) line (Or.inl rfl)

/-! ### Claim theorems for the annotation engine -/

/-- C1: the claim states that annotation is idempotent because the engine
skips a line on which the candidate code already appears.  The scripts
indeed intend this (their comment says they skip lines already marked), but
the check tests for the substring `*[`, which never occurs in the inserted
code `[* m:unv:a]`, so a second pass matches `it have` again and inserts a
second copy of the code.  This theorem evaluates the per-line pass of
`find_and_annotate_unv_errors` at the failing input `*CHI:\tit have a ball .`:
the annotated line does not contain `*[`, and the second pass duplicates the
code instead of leaving the line unchanged. -/
theorem unv_double_annotation_at_failing_input :
    find_and_annotate_unv_line "*CHI:\tit have a ball .".data =
      "*CHI:\tit have [* m:unv:a] a ball .".data ∧
    containsSub "*[".data "*CHI:\tit have [* m:unv:a] a ball .".data = false ∧
    find_and_annotate_unv_line (find_and_annotate_unv_line "*CHI:\tit have a ball .".data) =
      "*CHI:\tit have [* m:unv:a] [* m:unv:a] a ball .".data := by
  refine ⟨by decide, by decide, by decide⟩

/-- C2 counterexample: the claim quantifies over every utterance text on
which the 03s rule is the only rule that could fire.  On the already
annotated text `*CHI:\the play [* m:03s:a] .` no unv/vsg/past-tense rule
fires, yet annotating inserts a second code (the skip check looks for `*[`,
which the text does not contain) and reverting then removes both codes,
returning `*CHI:\the play .` instead of the original text. -/
theorem revert_not_left_inverse_on_annotated_input :
    (find_and_annotate_unv_line "*CHI:\the play [* m:03s:a] .".data =
        "*CHI:\the play [* m:03s:a] .".data ∧
     find_and_annotate_vsg_line "*CHI:\the play [* m:03s:a] .".data =
        "*CHI:\the play [* m:03s:a] .".data ∧
     find_and_mark_line "*CHI:\the play [* m:03s:a] .".data = []) ∧
    revert_03s_line (find_and_annotate_03s_line "*CHI:\the play [* m:03s:a] .".data) =
      "*CHI:\the play .".data ∧
    revert_03s_line (find_and_annotate_03s_line "*CHI:\the play [* m:03s:a] .".data) ≠
      "*CHI:\the play [* m:03s:a] .".data := by
  refine ⟨⟨by decide, by decide, by decide⟩, by decide, by decide⟩

/-- C2 (amended): reverting the 03s code is a left inverse of the 03s
annotation pass on every utterance text on which the 03s rule is the only
rule that could fire (the unv, vsg and past-tense passes leave the text
unchanged) and which does not already contain the code `[* m:03s:a]`. -/
theorem revert_is_left_inverse_of_annotate_03s (t : List Char)
    (hclean : containsSub CODE03 t = false)
    (hunv : find_and_annotate_unv_line t = t)
    (hvsg : find_and_annotate_vsg_line t = t)
    (hpast : find_and_mark_line t = []) :
    revert_03s_line (find_and_annotate_03s_line t) = t := by
  have hno : ¬ CODE03 <:+: t := by
    intro h
    rw [(containsSub_iff CODE03 t).mpr h] at hclean
    simp at hclean
  rcases find03_shape t with h | ⟨s, v, hsmem, hvlow, h⟩
  · rw [h]
    unfold revert_03s_line
    rw [hclean, if_neg (by simp)]
  · rw [h]
    obtain ⟨hslow, hslen⟩ := subjects03_facts s hsmem
    have hins : " [* m:03s:a]".data = ' ' :: CODE03 := rfl
    rw [hins]
    unfold revert_03s_line
    by_cases hg : containsSub CODE03 (subPairAll s v (' ' :: CODE03) false t) = true
    · rw [if_pos hg]
      exact removeAll03_subPairAll s v hslow hvlow hslen t.length t le_rfl false hno
    · rw [if_neg hg]
      rcases subPairAll_eq_or_code s v t.length t le_rfl false with he | hcode
      · exact he
      · exact absurd ((containsSub_iff _ _).mpr hcode) hg

/-- Witness for the amended C2 theorem at the concrete text `*CHI:\the play .`:
all hypotheses hold and the revert of the annotation returns the text. -/
theorem revert_is_left_inverse_of_annotate_03s_witness :
    containsSub CODE03 "*CHI:\the play .".data = false ∧
    find_and_annotate_unv_line "*CHI:\the play .".data = "*CHI:\the play .".data ∧
    find_and_annotate_vsg_line "*CHI:\the play .".data = "*CHI:\the play .".data ∧
    find_and_mark_line "*CHI:\the play .".data = [] ∧
    revert_03s_line (find_and_annotate_03s_line "*CHI:\the play .".data) =
      "*CHI:\the play .".data :=
  ⟨by decide, by decide, by decide, by decide,
   revert_is_left_inverse_of_annotate_03s "*CHI:\the play .".data
     (by decide) (by decide) (by decide) (by decide)⟩

/-- C5: on the input line `*CHI:\tthis sit here .`, an agreement rule whose
subject set contains `this` and whose bad-verb set contains `sit` (and no
copulas) appends exactly the bare code after the matched two-token span:
the result is `*CHI:\tthis sit [* m:unv:a] here .`. -/
theorem agreement_scenario_this_sit :
    annotate_pass SINGULAR_SUBJECTS ["sit".data] "m:unv:a".data " [* m:unv:a]".data
      "*CHI:\tthis sit here .".data = "*CHI:\tthis sit [* m:unv:a] here .".data := by
  decide

/-- C6: on the input line `*CHI:\the feeled sad .` with the irregular-verb
rule mapping `feel` to `felt`, the past-tense pass records exactly the
corrected line `*CHI:\the feeled [: felt] [* m:=ed] sad .`, keeping the
regularized form and appending the correction bracket and the code. -/
theorem regularization_scenario_feeled :
    find_and_mark_line "*CHI:\the feeled sad .".data =
      [("*CHI:\the feeled sad .".data,
        "*CHI:\the feeled [: felt] [* m:=ed] sad .".data)] := by
  decide

/-! ### C3: the segment export threshold -/

theorem saveStory_map (meta : Meta) (gem : List Char) (cur : List (List Char))
    (rows : List GemRow) :
    (saveStory meta gem cur rows).map (fun r => r.transcript) =
      rows.map (fun r => r.transcript) ++
        (if 2 < cur.length then [joinSpace cur] else []) := by
  unfold saveStory
  by_cases h : 2 < cur.length
  · rw [if_pos h, if_pos h]
    simp
  · rw [if_neg h, if_neg h]
    simp

theorem gem_loop_invariant (meta : Meta) :
    ∀ ls : List (List Char), ∀ gem : List Char, ∀ cur : List (List Char),
      ∀ rows : List GemRow, ∀ segs : List (List (List Char)),
      rows.map (fun r => r.transcript) =
        (segs.filter (fun s => 2 < s.length)).map joinSpace →
      (ls.foldl (gemStep meta) ⟨gem, cur, rows⟩).rows.map (fun r => r.transcript) =
        (((ls.foldl segStep (cur, segs)).2).filter (fun s => 2 < s.length)).map joinSpace ∧
      (ls.foldl (gemStep meta) ⟨gem, cur, rows⟩).cur = (ls.foldl segStep (cur, segs)).1 := by
  intro ls
  induction ls with
  | nil =>
    intro gem cur rows segs h
    exact ⟨h, rfl⟩
  | cons line ls' ih =>
    intro gem cur rows segs h
    simp only [List.foldl_cons]
    by_cases hg : "@G:".data.isPrefixOf line = true
    · have e1 : gemStep meta ⟨gem, cur, rows⟩ line =
          ⟨pyStrip (replaceSub "@G:".data [] line), [], saveStory meta gem cur rows⟩ := by
        unfold gemStep
        rw [if_pos hg]
      have e2 : segStep (cur, segs) line = ([], segs ++ [cur]) := by
        unfold segStep
        rw [if_pos hg]
      rw [e1, e2]
      apply ih
      rw [saveStory_map, h, List.filter_append, List.map_append]
      simp only [List.filter_cons, List.filter_nil]
      by_cases hc : 2 < cur.length
      · simp [hc]
      · simp [hc]
    · by_cases hchi : "*CHI:".data.isPrefixOf line = true
      · by_cases hclean : (clean_utterance line).isEmpty = true
        · have e1 : gemStep meta ⟨gem, cur, rows⟩ line = ⟨gem, cur, rows⟩ := by
            unfold gemStep
            rw [if_neg (by simp [hg]), if_pos hchi]
            simp [hclean]
          have e2 : segStep (cur, segs) line = (cur, segs) := by
            unfold segStep
            rw [if_neg (by simp [hg]), if_pos hchi]
            simp [hclean]
          rw [e1, e2]
          exact ih gem cur rows segs h
        · have e1 : gemStep meta ⟨gem, cur, rows⟩ line =
              ⟨gem, cur ++ [clean_utterance line], rows⟩ := by
            unfold gemStep
            rw [if_neg (by simp [hg]), if_pos hchi]
            simp [hclean]
          have e2 : segStep (cur, segs) line = (cur ++ [clean_utterance line], segs) := by
            unfold segStep
            rw [if_neg (by simp [hg]), if_pos hchi]
            simp [hclean]
          rw [e1, e2]
          exact ih gem (cur ++ [clean_utterance line]) rows segs h
      · have e1 : gemStep meta ⟨gem, cur, rows⟩ line = ⟨gem, cur, rows⟩ := by
          unfold gemStep
          rw [if_neg (by simp [hg]), if_neg (by simp [hchi])]
        have e2 : segStep (cur, segs) line = (cur, segs) := by
          unfold segStep
          rw [if_neg (by simp [hg]), if_neg (by simp [hchi])]
        rw [e1, e2]
        exact ih gem cur rows segs h

/-- C3: the gem-extraction loop exports exactly those collected segments that
hold more than two cleaned utterances: a segment with at most two collected
utterances never yields a row, a segment with at least three always does, and
the final segment is flushed at end of file under the same rule.  Stated as:
the exported transcripts are precisely the space-joins of the size-filtered
collected segments, in order. -/
theorem segment_export_threshold (meta : Meta) (lines : List (List Char)) :
    (extract_gems meta lines).map (fun r => r.transcript) =
      ((collected_segments lines).filter (fun s => 2 < s.length)).map joinSpace := by
  unfold extract_gems collected_segments
  obtain ⟨h1, h2⟩ := gem_loop_invariant meta lines "General".data [] [] [] rfl
  rw [saveStory_map, h1, h2, List.filter_append, List.map_append]
  simp only [List.filter_cons, List.filter_nil]
  by_cases hc : 2 < (lines.foldl segStep ([], [])).1.length
  · simp [hc]
  · simp [hc]

/-! ### C4: completeness of the frequency table -/

theorem strLt_asymm : ∀ a b : List Char, strLt a b = true → strLt b a = false := by
  intro a
  induction a with
  | nil =>
    intro b h
    cases b with
    | nil => simpa [strLt] using h
    | cons y ys => simp [strLt]
  | cons x xs ih =>
    intro b h
    cases b with
    | nil => simp [strLt] at h
    | cons y ys =>
      simp only [strLt] at h ⊢
      by_cases h1 : x.toNat < y.toNat
      · rw [if_neg (by omega), if_pos h1]
      · by_cases h2 : y.toNat < x.toNat
        · rw [if_neg h1, if_pos h2] at h
          exact absurd h (by simp)
        · rw [if_neg h1, if_neg h2] at h
          rw [if_neg h2, if_neg h1]
          exact ih ys h

theorem strLt_trans : ∀ a b c : List Char,
    strLt a b = true → strLt b c = true → strLt a c = true := by
  intro a
  induction a with
  | nil =>
    intro b c hab hbc
    cases c with
    | nil =>
      cases b with
      | nil => simpa [strLt] using hab
      | cons y ys => simp [strLt] at hbc
    | cons z zs => simp [strLt]
  | cons x xs ih =>
    intro b c hab hbc
    cases b with
    | nil => simp [strLt] at hab
    | cons y ys =>
      cases c with
      | nil => simp [strLt] at hbc
      | cons z zs =>
        simp only [strLt] at hab hbc ⊢
        by_cases h1 : x.toNat < y.toNat
        · by_cases h2 : y.toNat < z.toNat
          · rw [if_pos (by omega)]
          · by_cases h3 : z.toNat < y.toNat
            · rw [if_neg h2, if_pos h3] at hbc
              exact absurd hbc (by simp)
            · rw [if_pos (by omega)]
        · by_cases h4 : y.toNat < x.toNat
          · rw [if_neg h1, if_pos h4] at hab
            exact absurd hab (by simp)
          · rw [if_neg h1, if_neg h4] at hab
            by_cases h2 : y.toNat < z.toNat
            · rw [if_pos (by omega)]
            · by_cases h3 : z.toNat < y.toNat
              · rw [if_neg h2, if_pos h3] at hbc
                exact absurd hbc (by simp)
              · rw [if_neg h2, if_neg h3] at hbc
                rw [if_neg (by omega), if_neg (by omega)]
                exact ih ys zs hab hbc

theorem strLt_connex : ∀ a b : List Char,
    strLt a b = false → strLt b a = false → a = b := by
  intro a
  induction a with
  | nil =>
    intro b hab _
    cases b with
    | nil => rfl
    | cons y ys => simp [strLt] at hab
  | cons x xs ih =>
    intro b hab hba
    cases b with
    | nil => simp [strLt] at hba
    | cons y ys =>
      simp only [strLt] at hab hba
      by_cases h1 : x.toNat < y.toNat
      · rw [if_pos h1] at hab
        exact absurd hab (by simp)
      · by_cases h2 : y.toNat < x.toNat
        · rw [if_pos h2] at hba
          exact absurd hba (by simp)
        · rw [if_neg h1, if_neg h2] at hab
          rw [if_neg h2, if_neg h1] at hba
          have hx : x = y := by
            have hn : x.toNat = y.toNat := by omega
            exact Char.ext (UInt32.ext hn)
          rw [hx, ih ys hab hba]

instance strLe_isTotal : IsTotal (List Char) (fun a b => strLe a b = true) := by
  constructor
  intro a b
  unfold strLe
  by_cases h : strLt b a = true
  · right
    rw [strLt_asymm b a h]
    rfl
  · left
    rw [Bool.not_eq_true] at h
    rw [h]
    rfl

instance strLe_isTrans : IsTrans (List Char) (fun a b => strLe a b = true) := by
  constructor
  intro a b c hab hbc
  unfold strLe at hab hbc ⊢
  rw [Bool.not_eq_true'] at hab hbc ⊢
  by_contra hx
  have hca : strLt c a = true := by
    cases h : strLt c a
    · exact absurd h hx
    · rfl
  by_cases h1 : strLt a b = true
  · have := strLt_trans c a b hca h1
    rw [this] at hbc
    exact absurd hbc (by simp)
  · by_cases h2 : strLt b a = true
    · rw [h2] at hab
      exact absurd hab (by simp)
    · have heq : a = b := strLt_connex a b (by simpa using h1) (by simpa using h2)
      rw [← heq] at hbc
      rw [hca] at hbc
      exact absurd hbc (by simp)

theorem mem_collect_foldl (fd : List (List Char × List (List Char × Nat))) :
    ∀ init : List (List Char), ∀ c : List Char,
      (c ∈ fd.foldl (fun acc p => acc ++ p.2.map Prod.fst) init ↔
        c ∈ init ∨ ∃ p ∈ fd, c ∈ p.2.map Prod.fst) := by
  induction fd with
  | nil => simp
  | cons q fd' ih =>
    intro init c
    rw [List.foldl_cons, ih]
    simp only [List.mem_append, List.mem_cons]
    constructor
    · rintro (⟨h | h⟩ | ⟨p, hp, hc⟩)
      · exact Or.inl h
      · exact Or.inr ⟨q, Or.inl rfl, h⟩
      · exact Or.inr ⟨p, Or.inr hp, hc⟩
    · rintro (h | ⟨p, hp | hp, hc⟩)
      · exact Or.inl (Or.inl h)
      · exact Or.inl (Or.inr (hp ▸ hc))
      · exact Or.inr ⟨p, hp, hc⟩

/-- C4: the emitted frequency table has as columns the deduplicated,
lexicographically sorted union of all codes over all file reports; there is
exactly one row per report, every row carries one (integer count) cell per
column, built by `get(code, 0)` so that absent codes are zero-filled; a
report with no codes yields an all-zero row; and the three-file scenario
with codes A and B, B and C, and none yields columns A, B, C with rows
1 1 0, 0 1 1 and 0 0 0. -/
theorem freq_table_complete (fd : List (List Char × List (List Char × Nat))) :
    List.Sorted (fun a b => strLe a b = true) (sorted_codes fd) ∧
    (sorted_codes fd).Nodup ∧
    (∀ c, c ∈ sorted_codes fd ↔ ∃ p ∈ fd, c ∈ p.2.map Prod.fst) ∧
    (freq_table fd).2.length = fd.length ∧
    (∀ p ∈ fd, (p.1, (sorted_codes fd).map (freq_get p.2)) ∈ (freq_table fd).2) ∧
    (∀ row ∈ (freq_table fd).2, row.2.length = (sorted_codes fd).length) ∧
    (∀ p ∈ fd, p.2 = [] → (p.1, (sorted_codes fd).map (fun _ => 0)) ∈ (freq_table fd).2) ∧
    freq_table [("f1".data, [("A".data, 1), ("B".data, 1)]),
                ("f2".data, [("B".data, 1), ("C".data, 1)]),
                ("f3".data, [])] =
      ("File".data :: ["A".data, "B".data, "C".data],
       [("f1".data, [1, 1, 0]), ("f2".data, [0, 1, 1]), ("f3".data, [0, 0, 0])]) := by
  refine ⟨List.sorted_insertionSort _ _,
    ((List.perm_insertionSort _ _).nodup_iff).mpr (List.nodup_dedup _), ?_, ?_, ?_, ?_, ?_, ?_⟩
  · intro c
    unfold sorted_codes collect_codes
    rw [List.mem_insertionSort, List.mem_dedup, mem_collect_foldl]
    simp
  · unfold freq_table
    simp
  · intro p hp
    unfold freq_table
    simp only
    exact List.mem_map_of_mem (fun p => (p.1, (sorted_codes fd).map (freq_get p.2))) hp
  · intro row hrow
    unfold freq_table at hrow
    simp only at hrow
    obtain ⟨p, _, hrow⟩ := List.mem_map.mp hrow
    rw [← hrow]
    simp
  · intro p hp hemp
    have hz : (sorted_codes fd).map (freq_get p.2) = (sorted_codes fd).map (fun _ => 0) := by
      apply List.map_congr_left
      intro c _
      rw [hemp]
      rfl
    rw [← hz]
    unfold freq_table
    simp only
    exact List.mem_map_of_mem (fun p => (p.1, (sorted_codes fd).map (freq_get p.2))) hp
  · decide

/-- Witness for C4 at the three-file scenario: the report with no codes is
still emitted, as the all-zero row. -/
theorem freq_table_complete_witness :
    ("f3".data, (sorted_codes [("f1".data, [("A".data, 1), ("B".data, 1)]),
        ("f2".data, [("B".data, 1), ("C".data, 1)]), ("f3".data, [])]).map (fun _ => 0)) ∈
      (freq_table [("f1".data, [("A".data, 1), ("B".data, 1)]),
        ("f2".data, [("B".data, 1), ("C".data, 1)]), ("f3".data, [])]).2 :=
  (freq_table_complete [("f1".data, [("A".data, 1), ("B".data, 1)]),
      ("f2".data, [("B".data, 1), ("C".data, 1)]),
      ("f3".data, [])]).2.2.2.2.2.2.1 ("f3".data, []) (by decide) rfl

/-! ### C7: totality of the cleaners -/

theorem pySplit1_length (sep : Char) :
    ∀ l : List Char, (pySplit1 sep l).length = if l.contains sep then 2 else 1 := by
  intro l
  induction l with
  | nil => simp [pySplit1]
  | cons c cs ih =>
    simp only [pySplit1]
    by_cases hc : (c == sep) = true
    · rw [if_pos hc]
      have hcs : c = sep := beq_iff_eq.mp hc
      subst hcs
      simp [List.contains_cons]
    · rw [if_neg hc]
      have hne : ¬ c = sep := by simpa using hc
      have hcc : (c :: cs).contains sep = cs.contains sep := by
        simp only [List.contains_cons]
        rw [beq_eq_false_iff_ne.mpr (Ne.symm hne)]
        simp
      rw [hcc]
      cases hp : pySplit1 sep cs with
      | nil => rw [hp] at ih; simp at ih; split at ih <;> omega
      | cons p rest =>
        rw [hp] at ih
        simpa using ih

theorem get1_isSome_of_contains {sep : Char} {l : List Char}
    (h : l.contains sep = true) : ((pySplit1 sep l).get? 1).isSome = true := by
  have hl : (pySplit1 sep l).length = 2 := by rw [pySplit1_length, h]; simp
  rw [Option.isSome_iff_ne_none]
  intro hn
  rw [List.get?_eq_none] at hn
  omega

theorem chi_contains_colon {l : List Char}
    (h : "*CHI:".data.isPrefixOf l = true) : l.contains ':' = true := by
  obtain ⟨t, rfl⟩ := List.isPrefixOf_iff_prefix.mp h
  have : ':' ∈ "*CHI:".data ++ t := by
    apply List.mem_append_left
    decide
  exact List.elem_eq_true_of_mem this

/-- C7 (amended): the strict cleaner body never fails on any input (so the
`except` clause is dead and `clean_utterance` is a total, pure, deterministic
string-to-string function); the naturalistic cleaner returns a string for
every line bearing the tracked-speaker prefix, and `None` (not an error) for
every other line; an input whose content strips to nothing yields the empty
string rather than a failure, in both modes. -/
theorem cleaner_totality :
    (∀ l : List Char, (clean_utterance_body l).isSome = true) ∧
    (∀ l : List Char, "*CHI:".data.isPrefixOf l = true →
      (smart_clean_utterance l).isSome = true) ∧
    (∀ l : List Char, "*CHI:".data.isPrefixOf l = false →
      smart_clean_utterance l = none) ∧
    clean_utterance "*CHI:\txxx .".data = [] ∧
    smart_clean_utterance "*CHI:".data = some [] := by
  refine ⟨?_, ?_, ?_, by decide, by decide⟩
  · intro l
    unfold clean_utterance_body
    by_cases hc : l.contains ':' = true
    · rw [if_pos hc]
      have hsome := get1_isSome_of_contains hc
      cases hg : (pySplit1 ':' l).get? 1 with
      | none => rw [hg] at hsome; simp at hsome
      | some t => rfl
    · rw [if_neg hc]
      rfl
  · intro l h
    unfold smart_clean_utterance
    rw [if_pos h]
    have hsome := get1_isSome_of_contains (chi_contains_colon h)
    cases hg : (pySplit1 ':' l).get? 1 with
    | none => rw [hg] at hsome; simp at hsome
    | some t => rfl
  · intro l h
    unfold smart_clean_utterance
    rw [h]
    simp

/-- Witness for C7 at concrete lines: the strict body succeeds on an
utterance line, the naturalistic cleaner succeeds on a tracked line and
returns `None` on a header line. -/
theorem cleaner_totality_witness :
    (clean_utterance_body "*CHI:\thi .".data).isSome = true ∧
    (smart_clean_utterance "*CHI:\thi .".data).isSome = true ∧
    smart_clean_utterance "@ID: x".data = none :=
  ⟨cleaner_totality.1 "*CHI:\thi .".data,
   cleaner_totality.2.1 "*CHI:\thi .".data (by decide),
   cleaner_totality.2.2.1 "@ID: x".data (by decide)⟩

/-- C7 counterexample: the naturalistic cleaner does not return a string for
every input: on a line without the tracked-speaker prefix it returns `None`. -/
theorem smart_cleaner_none_on_other_line :
    smart_clean_utterance "hello".data = none := by decide

/-! ### C10: the strict cleaner postcondition -/

theorem dropWhile_self_idem (p : Char → Bool) :
    ∀ l : List Char, (l.dropWhile p).dropWhile p = l.dropWhile p := by
  intro l
  induction l with
  | nil => rfl
  | cons c cs ih =>
    by_cases hc : p c = true
    · simp [List.dropWhile_cons, hc, ih]
    · simp [List.dropWhile_cons, hc]

theorem dropWhile_eq_self_head {p : Char → Bool} {c : Char} {l : List Char}
    (h : (c :: l).dropWhile p = c :: l) : p c = false := by
  by_cases hc : p c = true
  · rw [List.dropWhile_cons, if_pos hc] at h
    have hlen := congrArg List.length h
    have hle : (l.dropWhile p).length ≤ l.length :=
      (List.dropWhile_sublist p).length_le
    simp at hlen
    omega
  · simpa using hc

theorem dropWhile_eq_self_of_prefix {p : Char → Bool} :
    ∀ {u w : List Char}, u <+: w → w.dropWhile p = w → u.dropWhile p = u := by
  intro u w hpre hw
  cases u with
  | nil => rfl
  | cons c u' =>
    obtain ⟨t, rfl⟩ := hpre
    have hc : p c = false := dropWhile_eq_self_head (l := u' ++ t) (by simpa using hw)
    rw [List.dropWhile_cons, if_neg (by simp [hc])]

theorem pyStrip_no_lead_trail (z : List Char) :
    (pyStrip z).dropWhile pySpace = pyStrip z ∧
    (pyStrip z).reverse.dropWhile pySpace = (pyStrip z).reverse := by
  unfold pyStrip
  constructor
  · apply dropWhile_eq_self_of_prefix (p := pySpace) (w := z.dropWhile pySpace)
    · have h1 : List.dropWhile pySpace (z.dropWhile pySpace).reverse <:+
          (z.dropWhile pySpace).reverse := List.dropWhile_suffix pySpace
      have h2 := List.reverse_prefix.mpr h1
      rw [List.reverse_reverse] at h2
      exact h2
    · exact dropWhile_self_idem pySpace z
  · rw [List.reverse_reverse]
    exact dropWhile_self_idem pySpace _

theorem mem_pyStrip {x : Char} {l : List Char} (h : x ∈ pyStrip l) : x ∈ l := by
  unfold pyStrip at h
  rw [List.mem_reverse] at h
  have h2 := (List.dropWhile_sublist pySpace).subset h
  rw [List.mem_reverse] at h2
  exact (List.dropWhile_sublist pySpace).subset h2

/-- C10 (amended): every character of the strict cleaner's output is a word
character or whitespace (so no brackets, punctuation, ampersand fragments or
plus tokens survive), the output has no leading or trailing whitespace, and
a line without a colon yields the empty string.  The original claim's
stronger reading that the placeholders `xxx`/`yyy` can never appear in the
output is false: only pre-existing occurrences are removed, and the later
punctuation removal may merge fragments into a fresh `xxx`. -/
theorem clean_strict_postcondition (l : List Char) :
    (∀ c ∈ clean_utterance l, (pyWordChar c || pySpace c) = true) ∧
    (clean_utterance l).dropWhile pySpace = clean_utterance l ∧
    (clean_utterance l).reverse.dropWhile pySpace = (clean_utterance l).reverse ∧
    (l.contains ':' = false → clean_utterance l = []) := by
  unfold clean_utterance clean_utterance_body
  by_cases hc : l.contains ':' = true
  · rw [if_pos hc]
    cases hg : (pySplit1 ':' l).get? 1 with
    | none =>
      have := get1_isSome_of_contains hc
      rw [hg] at this
      simp at this
    | some t0 =>
      simp only [Option.map_some', Option.getD_some]
      refine ⟨?_, (pyStrip_no_lead_trail _).1, (pyStrip_no_lead_trail _).2, ?_⟩
      · intro c hcm
        have := mem_pyStrip hcm
        exact (List.mem_filter.mp this).2
      · intro hx
        rw [hx] at hc
        simp at hc
  · rw [if_neg hc]
    refine ⟨by simp, rfl, rfl, fun _ => rfl⟩

/-- Witness for C10 at concrete lines: the postcondition at an utterance
line with markup, and the empty output on a line without a colon. -/
theorem clean_strict_postcondition_witness :
    (clean_utterance "*CHI:\tbig [* m:unv:a] dog .".data).dropWhile pySpace =
      clean_utterance "*CHI:\tbig [* m:unv:a] dog .".data ∧
    clean_utterance "no colon line".data = [] :=
  ⟨(clean_strict_postcondition "*CHI:\tbig [* m:unv:a] dog .".data).2.1,
   (clean_strict_postcondition "no colon line".data).2.2.2 (by decide)⟩

/-- C10 counterexample: on the line `*CHI: xx!x .` the strict cleaner first
removes nothing but the dot and then deletes the exclamation mark, merging
the fragments into a fresh `xxx` that survives in the output. -/
theorem clean_strict_xxx_survives :
    clean_utterance "*CHI: xx!x .".data = "xxx".data ∧
    containsSub "xxx".data (clean_utterance "*CHI: xx!x .".data) = true := by
  refine ⟨by decide, by decide⟩

/-! ### C8: the rewrite frame property -/

/-- C8 (amended): the CLAN error-coding rewrite of
`add_clan_error_coding.py` mutates only tracked-speaker lines: the output
has one line per input line, and every line that does not begin with
`*CHI:` is written back unchanged.  (The regex annotation scripts do not
have this property; see the counterexample.) -/
theorem add_error_coding_frame (lines : List (List Char)) :
    (add_error_coding_lines lines).length = lines.length ∧
    (∀ i : Nat, i < lines.length → "*CHI:".data.isPrefixOf (lines.getD i []) = false →
      (add_error_coding_lines lines).getD i [] = lines.getD i []) := by
  constructor
  · simp [add_error_coding_lines]
  · intro i hi hpre
    have hi2 : i < (add_error_coding_lines lines).length := by
      simpa [add_error_coding_lines] using hi
    rw [List.getD_eq_getElem lines [] hi] at hpre ⊢
    rw [List.getD_eq_getElem _ [] hi2]
    unfold add_error_coding_lines
    rw [List.getElem_map]
    rw [hpre]
    simp

/-- Witness for C8: a header line and a dependent-tier line pass through the
CLAN error-coding rewrite unchanged. -/
theorem add_error_coding_frame_witness :
    (add_error_coding_lines ["@ID: x\n".data, "%mor: tier\n".data]).getD 0 [] =
      "@ID: x\n".data ∧
    (add_error_coding_lines ["@ID: x\n".data, "%mor: tier\n".data]).getD 1 [] =
      "%mor: tier\n".data :=
  ⟨(add_error_coding_frame ["@ID: x\n".data, "%mor: tier\n".data]).2 0
      (by decide) (by decide),
   (add_error_coding_frame ["@ID: x\n".data, "%mor: tier\n".data]).2 1
      (by decide) (by decide)⟩

/-- C8 counterexample: the agreement-annotation rewrite of
`find_unv_errors.py` checks no speaker prefix, so it mutates a header line
whose text happens to match the pattern: the claim that only `*CHI:` lines
are mutated is false for that rewrite. -/
theorem unv_file_mutates_header_line :
    "*CHI:".data.isPrefixOf "@Comment:\tit have problems .\n".data = false ∧
    find_and_annotate_unv_file ["@Comment:\tit have problems .\n".data] =
      ["@Comment:\tit have [* m:unv:a] problems .\n".data] ∧
    find_and_annotate_unv_file ["@Comment:\tit have problems .\n".data] ≠
      ["@Comment:\tit have problems .\n".data] := by
  refine ⟨by decide, by decide, by decide⟩

/-! ### C9: the persistence discipline -/

theorem prefix_foldl_append :
    ∀ l : List (List Char), ∀ acc : List Char,
      acc <+: l.foldl (fun a x => a ++ x) acc := by
  intro l
  induction l with
  | nil => intro acc; exact List.prefix_refl acc
  | cons x xs ih =>
    intro acc
    rw [List.foldl_cons]
    exact (List.prefix_append acc x).trans (ih (acc ++ x))

theorem scanl_states_prefix :
    ∀ l : List (List Char), ∀ acc : List Char,
      ∀ s ∈ List.scanl (fun a x => a ++ x) acc l,
        s <+: l.foldl (fun a x => a ++ x) acc := by
  intro l
  induction l with
  | nil =>
    intro acc s hs
    simp only [List.scanl, List.mem_singleton] at hs
    subst hs
    exact List.prefix_refl s
  | cons x xs ih =>
    intro acc s hs
    simp only [List.scanl, List.mem_cons] at hs
    rw [List.foldl_cons]
    rcases hs with hs | hs
    · subst hs
      exact (List.prefix_append s x).trans (prefix_foldl_append xs (s ++ x))
    · exact ih (acc ++ x) s hs

/-- C9 (amended): the scripts persist with `open(path, 'w')` followed by
`writelines`, an in-place truncate-then-append discipline, not an atomic
replace: the first observable on-disk state is the empty file, and every
observable state is a prefix of the new content — an interruption mid-write
leaves a partially rewritten file, and the original content is not
preserved once the write has begun. -/
theorem write_truncate_then_append (newLines : List (List Char)) :
    (write_in_place_states newLines).head? = some [] ∧
    (∀ s ∈ write_in_place_states newLines,
      s <+: newLines.foldl (fun a l => a ++ l) []) := by
  constructor
  · unfold write_in_place_states
    cases newLines <;> rfl
  · intro s hs
    exact scanl_states_prefix newLines [] s hs

/-- Witness for C9: on a two-line write, the trace starts at the empty file
and the half-written state is a strict prefix of the new content. -/
theorem write_truncate_then_append_witness :
    (write_in_place_states ["new one\n".data, "new two\n".data]).head? = some [] ∧
    "new one\n".data <+:
      List.foldl (fun a l => a ++ l) [] ["new one\n".data, "new two\n".data] :=
  ⟨(write_truncate_then_append ["new one\n".data, "new two\n".data]).1,
   (write_truncate_then_append ["new one\n".data, "new two\n".data]).2
     "new one\n".data (by decide)⟩

/-- C9 counterexample: interrupting the rewrite of a file whose original
content is `old content\n` after the first of two new lines leaves the file
holding `new one\n` — neither the original content nor the complete new
content, contradicting the claimed atomic replace-on-success discipline. -/
theorem write_not_atomic :
    "new one\n".data ∈
      write_in_place_states ["new one\n".data, "new two\n".data] ∧
    "new one\n".data ≠ "old content\n".data ∧
    "new one\n".data ≠ "new one\nnew two\n".data := by
  refine ⟨by decide, by decide, by decide⟩

end ICL
